import Mathlib

set_option maxRecDepth 100000

/-!
Verification of the Mobi Protocol reference implementation (`src/mobi.c`,
`src/mobi.h`).  The C sources are shallowly embedded: bytes are `Nat`
values reduced modulo 256 where the code truncates, 32-bit machine words
are `Nat` values reduced modulo `2 ^ 32`, byte buffers are `List Nat`,
C strings are `List Char`, and fallible functions return `Option` or
`Except mobi_error_t`.
-/

deriving instance DecidableEq for Except

namespace Mobi

/- SHA-256 (FIPS 180-4), embedded from the standalone implementation in
mobi.c lines 34-168.  Words are `Nat` values kept below `2 ^ 32`. -/

/-- The 64 SHA-256 round constants of mobi.c lines 43-60 (decimal). -/
def K256 : List Nat := [
  1116352408, 1899447441, 3049323471, 3921009573, 961987163,
  1508970993, 2453635748, 2870763221, 3624381080, 310598401,
  607225278, 1426881987, 1925078388, 2162078206, 2614888103,
  3248222580, 3835390401, 4022224774, 264347078, 604807628,
  770255983, 1249150122, 1555081692, 1996064986, 2554220882,
  2821834349, 2952996808, 3210313671, 3336571891, 3584528711,
  113926993, 338241895, 666307205, 773529912, 1294757372,
  1396182291, 1695183700, 1986661051, 2177026350, 2456956037,
  2730485921, 2820302411, 3259730800, 3345764771, 3516065817,
  3600352804, 4094571909, 275423344, 430227734, 506948616,
  659060556, 883997877, 958139571, 1322822218, 1537002063,
  1747873779, 1955562222, 2024104815, 2227730452, 2361852424,
  2428436474, 2756734187, 3204031479, 3329325298]

def ROTR32 (x n : Nat) : Nat := (x >>> n) ||| ((x <<< (32 - n)) % 2 ^ 32)

def CH (x y z : Nat) : Nat := (x &&& y) ^^^ ((x ^^^ 0xffffffff) &&& z)

def MAJ (x y z : Nat) : Nat := (x &&& y) ^^^ (x &&& z) ^^^ (y &&& z)

def EP0 (x : Nat) : Nat := ROTR32 x 2 ^^^ ROTR32 x 13 ^^^ ROTR32 x 22

def EP1 (x : Nat) : Nat := ROTR32 x 6 ^^^ ROTR32 x 11 ^^^ ROTR32 x 25

def SIG0 (x : Nat) : Nat := ROTR32 x 7 ^^^ ROTR32 x 18 ^^^ (x >>> 3)

def SIG1 (x : Nat) : Nat := ROTR32 x 17 ^^^ ROTR32 x 19 ^^^ (x >>> 10)

/-- First 16 message-schedule words: four big-endian bytes each. -/
def w16 (block : List Nat) : List Nat :=
  (List.range 16).map fun i =>
    ((block.getD (i * 4) 0) <<< 24) ||| ((block.getD (i * 4 + 1) 0) <<< 16) |||
      ((block.getD (i * 4 + 2) 0) <<< 8) ||| (block.getD (i * 4 + 3) 0)

/-- One extension step of the message schedule (mobi.c line 95). -/
def scheduleStep (w : List Nat) : List Nat :=
  w ++ [(SIG1 (w.getD (w.length - 2) 0) + w.getD (w.length - 7) 0 +
         SIG0 (w.getD (w.length - 15) 0) + w.getD (w.length - 16) 0) % 2 ^ 32]

def fullSchedule (block : List Nat) : List Nat :=
  (List.range 48).foldl (fun w _ => scheduleStep w) (w16 block)

/-- One of the 64 compression rounds (mobi.c lines 101-106), acting on the
eight working variables `[a, b, c, d, e, f, g, h]`. -/
def compressStep (w : List Nat) (st : List Nat) (i : Nat) : List Nat :=
  let a := st.getD 0 0
  let b := st.getD 1 0
  let c := st.getD 2 0
  let d := st.getD 3 0
  let e := st.getD 4 0
  let f := st.getD 5 0
  let g := st.getD 6 0
  let h := st.getD 7 0
  let t1 := (h + EP1 e + CH e f g + K256.getD i 0 + w.getD i 0) % 2 ^ 32
  let t2 := (EP0 a + MAJ a b c) % 2 ^ 32
  [(t1 + t2) % 2 ^ 32, a, b, c, (d + t1) % 2 ^ 32, e, f, g]

def sha256_transform (state block : List Nat) : List Nat :=
  let w := fullSchedule block
  let st := (List.range 64).foldl (compressStep w) state
  (state.zip st).map fun p => (p.1 + p.2) % 2 ^ 32

/-- The eight initial state words of sha256_init (decimal). -/
def sha256_init_state : List Nat :=
  [1779033703, 3144134277, 1013904242,
   2773480762, 1359893119, 2600822924,
   528734635, 1541459225]

def u64be (n : Nat) : List Nat :=
  [(n >>> 56) % 256, (n >>> 48) % 256, (n >>> 40) % 256, (n >>> 32) % 256,
   (n >>> 24) % 256, (n >>> 16) % 256, (n >>> 8) % 256, n % 256]

/-- Merkle-Damgard padding as performed by `sha256_update`/`sha256_final`:
append `0x80`, zero bytes up to 56 mod 64, then the bit length as a
big-endian 64-bit integer. -/
def sha256_pad (msg : List Nat) : List Nat :=
  msg ++ [0x80] ++ List.replicate ((119 - msg.length % 64) % 64) 0 ++
    u64be ((msg.length * 8) % 2 ^ 64)

def toBlocksGo : Nat → List Nat → List (List Nat)
  | 0, _ => []
  | _, [] => []
  | fuel + 1, x :: xs => ((x :: xs).take 64) :: toBlocksGo fuel ((x :: xs).drop 64)

/-- Split a byte list into 64-byte blocks.  The fuel `l.length` is enough
because each step consumes at least one byte. -/
def toBlocks (l : List Nat) : List (List Nat) := toBlocksGo l.length l

def sha256 (msg : List Nat) : List Nat :=
  let final := (toBlocks (sha256_pad msg)).foldl sha256_transform sha256_init_state
  final.flatMap fun s => [(s >>> 24) % 256, (s >>> 16) % 256, (s >>> 8) % 256, s % 256]

/- Hex utilities (mobi.c lines 174-195).  The C functions signal failure
with `-1`; the embedding returns `Option`. -/

def hex_char_to_nibble (c : Char) : Option Nat :=
  if '0' ≤ c ∧ c ≤ '9' then some (c.toNat - '0'.toNat)
  else if 'a' ≤ c ∧ c ≤ 'f' then some (c.toNat - 'a'.toNat + 10)
  else if 'A' ≤ c ∧ c ≤ 'F' then some (c.toNat - 'A'.toNat + 10)
  else none

/-- Pairwise hex decoding; fails on an odd-length input or a non-hex
character, exactly as `hex_decode` in the source does. -/
def hex_decode : List Char → Option (List Nat)
  | [] => some []
  | [_] => none
  | hi :: lo :: rest =>
    match hex_char_to_nibble hi, hex_char_to_nibble lo, hex_decode rest with
    | some h, some l, some r => some (((h <<< 4) ||| l) :: r)
    | _, _, _ => none

/- Error codes and the identifier structure (mobi.h lines 57-80). -/

inductive mobi_error_t where
  | MOBI_OK
  | MOBI_ERR_NULL
  | MOBI_ERR_INVALID_HEX
  | MOBI_ERR_INVALID_LEN
  | MOBI_ERR_INVALID_CHAR
deriving DecidableEq, Repr

structure mobi_t where
  full : List Char
  display : List Char
  extended : List Char
  lng : List Char
deriving DecidableEq, Repr

def MOBI_PUBKEY_LEN : Nat := 32
def MOBI_PUBKEY_HEX_LEN : Nat := 64
def MOBI_FULL_LEN : Nat := 21
def MOBI_DISPLAY_LEN : Nat := 12
def MOBI_EXTENDED_LEN : Nat := 15
def MOBI_LONG_LEN : Nat := 18
def MOBI_MAX_ROUNDS : Nat := 256

/- Big-number conversion (mobi.c lines 218-274). -/

/-- One pass of the base-256 long division by 10 (mobi.c lines 237-242):
process the byte buffer left to right carrying the remainder.  Returns
the quotient buffer and the final remainder (one decimal digit). -/
def divStepGo (r : Nat) : List Nat → List Nat × Nat
  | [] => ([], r)
  | b :: rest =>
    let current := r * 256 + b
    let p := divStepGo (current % 10) rest
    (current / 10 :: p.1, p.2)

def divStep (work : List Nat) : List Nat × Nat := divStepGo 0 work

/-- Value of a byte buffer read big-endian (how the 9 sampled bytes are
interpreted as a 72-bit integer). -/
def beVal : List Nat → Nat
  | [] => 0
  | b :: rest => b * 256 ^ rest.length + beVal rest

/-- Digit-extraction loop of `try_convert_hash` (mobi.c lines 230-248):
while the buffer is not all zero, divide by 10 and prepend the remainder
digit.  `fuel` bounds the iteration count; `digitsLoop` below supplies a
provably sufficient amount. -/
def digitsGo : Nat → List Nat → List Char
  | 0, _ => []
  | fuel + 1, work =>
    if work.all (· == 0) then []
    else digitsGo fuel (divStep work).1 ++ [Char.ofNat (48 + (divStep work).2)]

def digitsLoop (work : List Nat) : List Char := digitsGo (beVal work + 1) work

/-- Embedding of `try_convert_hash`: copy the first 9 bytes behind a
leading zero byte, extract decimal digits, treat the empty digit list as
`"0"`, reject above 21 digits, otherwise left-pad with zeros to 21. -/
def try_convert_hash (hash : List Nat) : Option (List Char) :=
  let work := 0 :: hash.take 9
  let digits0 := digitsLoop work
  let digits := if digits0.length = 0 then ['0'] else digits0
  if digits.length > 21 then none
  else some (List.replicate (21 - digits.length) '0' ++ digits)

/- Core derivation (mobi.c lines 286-354). -/

/-- Digest hashed in a given round (mobi.c lines 307-312): round 0 hashes
the 32 key bytes, round `r > 0` hashes the key followed by the single
byte `r` (truncated to 8 bits by the C cast). -/
def roundDigest (pubkey : List Nat) (round : Nat) : List Nat :=
  if round = 0 then sha256 (pubkey.take MOBI_PUBKEY_LEN)
  else sha256 (pubkey.take MOBI_PUBKEY_LEN ++ [round % 256])

/-- Rejection-sampling loop of `mobi_derive_bytes`: try the listed rounds
in order; on the first accepted conversion build the identifier by
prefix truncation; if every round rejects, fall through to the reused
`MOBI_ERR_INVALID_LEN` error (mobi.c line 333). -/
def deriveRounds (digest : Nat → List Nat) : List Nat → Except mobi_error_t mobi_t
  | [] => .error .MOBI_ERR_INVALID_LEN
  | r :: rest =>
    match try_convert_hash (digest r) with
    | some full =>
      .ok { full := full, display := full.take MOBI_DISPLAY_LEN,
            extended := full.take MOBI_EXTENDED_LEN, lng := full.take MOBI_LONG_LEN }
    | none => deriveRounds digest rest

def mobi_derive_bytes (pubkey : List Nat) : Except mobi_error_t mobi_t :=
  deriveRounds (roundDigest pubkey) (List.range MOBI_MAX_ROUNDS)

def mobi_derive (pubkey_hex : List Char) : Except mobi_error_t mobi_t :=
  if pubkey_hex.length ≠ MOBI_PUBKEY_HEX_LEN then .error .MOBI_ERR_INVALID_LEN
  else
    match hex_decode pubkey_hex with
    | none => .error .MOBI_ERR_INVALID_HEX
    | some pubkey => mobi_derive_bytes pubkey

/- Formatting (mobi.c lines 360-397).  Each `%.3s` conversion prints
three characters starting at the given offset. -/

def group3 (s : List Char) (i : Nat) : List Char := (s.drop i).take 3

def mobi_format_display (m : mobi_t) : List Char :=
  group3 m.display 0 ++ ['-'] ++ group3 m.display 3 ++ ['-'] ++
    group3 m.display 6 ++ ['-'] ++ group3 m.display 9

def mobi_format_extended (m : mobi_t) : List Char :=
  group3 m.extended 0 ++ ['-'] ++ group3 m.extended 3 ++ ['-'] ++
    group3 m.extended 6 ++ ['-'] ++ group3 m.extended 9 ++ ['-'] ++
    group3 m.extended 12

def mobi_format_full (m : mobi_t) : List Char :=
  group3 m.full 0 ++ ['-'] ++ group3 m.full 3 ++ ['-'] ++
    group3 m.full 6 ++ ['-'] ++ group3 m.full 9 ++ ['-'] ++
    group3 m.full 12 ++ ['-'] ++ group3 m.full 15 ++ ['-'] ++
    group3 m.full 18

/- Normalization and validation (mobi.c lines 403-451). -/

/-- Scanning loop of `mobi_normalize`: before each character check the
capacity guard `digit_count < out_len - 1`; copy digits, skip the
separator allow-list, fail on anything else.  On success the returned
list is the written output; its length is the C return value. -/
def mobi_normalize_go (out_len : Nat) : List Char → Nat → Except mobi_error_t (List Char)
  | [], _ => .ok []
  | c :: rest, digit_count =>
    if digit_count < out_len - 1 then
      if c.isDigit then
        match mobi_normalize_go out_len rest (digit_count + 1) with
        | .ok ds => .ok (c :: ds)
        | .error e => .error e
      else if c = '-' ∨ c = ' ' ∨ c = '.' ∨ c = '(' ∨ c = ')' then
        mobi_normalize_go out_len rest digit_count
      else .error .MOBI_ERR_INVALID_CHAR
    else .ok []

def mobi_normalize (input : List Char) (out_len : Nat) : Except mobi_error_t (List Char) :=
  mobi_normalize_go out_len input 0

def mobi_validate (s : List Char) : Bool :=
  (s.length == 12 || s.length == 15 || s.length == 18 || s.length == 21) &&
    s.all Char.isDigit

/-- Character allow-list of `mobi_normalize`: a digit or one of the five
separator characters. -/
def normChar (c : Char) : Prop :=
  c.isDigit = true ∨ c = '-' ∨ c = ' ' ∨ c = '.' ∨ c = '(' ∨ c = ')'

instance (c : Char) : Decidable (normChar c) := by unfold normChar; infer_instance


/- Specification-side definitions, written from the spec wording ("the
21-character left-zero-padded decimal representation of v"), to be
compared with the code-side converter. -/

/-- Decimal digit characters of `v`, most significant first; empty for
zero.  Defined with explicit fuel so it evaluates by kernel reduction. -/
def natDigitsGo : Nat → Nat → List Char
  | 0, _ => []
  | fuel + 1, v =>
    if v = 0 then [] else natDigitsGo fuel (v / 10) ++ [Char.ofNat (48 + v % 10)]

def natDigits (v : Nat) : List Char := natDigitsGo (v + 1) v

/-- Decimal representation of `v` (`"0"` for zero). -/
def decRep (v : Nat) : List Char := if v = 0 then ['0'] else natDigits v

/-- The 21-character left-zero-padded decimal representation of `v`. -/
def padDecimal (v : Nat) : List Char :=
  List.replicate (21 - (decRep v).length) '0' ++ decRep v

/-- Integer value denoted by a decimal digit string. -/
def digitsVal (s : List Char) : Nat :=
  s.foldl (fun acc c => acc * 10 + (c.toNat - 48)) 0

/-- Sampled 72-bit value of a round: the first 9 digest bytes read as a
big-endian integer. -/
def sampleVal (pubkey : List Nat) (r : Nat) : Nat :=
  beVal ((roundDigest pubkey r).take 9)

/-- Digest stream in which every round is rejected: all 32 bytes are
0xff, so the first 9 bytes decode to `2 ^ 72 - 1 ≥ 10 ^ 21`. -/
def constRejectDigest : Nat → List Nat := fun _ => List.replicate 32 255

/-- The identifier derived from the all-zero 32-byte key. -/
def mZero : mobi_t :=
  { full := "587135537154686717107".data, display := "587135537154".data,
    extended := "587135537154686".data, lng := "587135537154686717".data }

/-- The identifier derived from the documented hex test key. -/
def mTest : mobi_t :=
  { full := "879044656584686196443".data, display := "879044656584".data,
    extended := "879044656584686".data, lng := "879044656584686196".data }

/- Lemmas about the base-256 long division. -/

lemma divStepGo_length (l : List Nat) : ∀ r, (divStepGo r l).1.length = l.length := by
  induction l with
  | nil => intro r; rfl
  | cons b rest ih => intro r; simp [divStepGo, ih]

lemma divStepGo_spec (l : List Nat) : ∀ r, r < 10 →
    10 * beVal (divStepGo r l).1 + (divStepGo r l).2 = r * 256 ^ l.length + beVal l ∧
      (divStepGo r l).2 < 10 := by
  induction l with
  | nil => intro r hr; simpa [divStepGo, beVal] using hr
  | cons b rest ih =>
    intro r hr
    obtain ⟨h1, h2⟩ := ih ((r * 256 + b) % 10) (Nat.mod_lt _ (by norm_num))
    refine ⟨?_, by simpa [divStepGo] using h2⟩
    have hdm : 10 * ((r * 256 + b) / 10) + (r * 256 + b) % 10 = r * 256 + b :=
      Nat.div_add_mod _ 10
    simp only [divStepGo, beVal, divStepGo_length, List.length_cons]
    calc 10 * ((r * 256 + b) / 10 * 256 ^ rest.length +
            beVal (divStepGo ((r * 256 + b) % 10) rest).1) +
          (divStepGo ((r * 256 + b) % 10) rest).2
        = 10 * ((r * 256 + b) / 10) * 256 ^ rest.length +
            (10 * beVal (divStepGo ((r * 256 + b) % 10) rest).1 +
              (divStepGo ((r * 256 + b) % 10) rest).2) := by ring
      _ = 10 * ((r * 256 + b) / 10) * 256 ^ rest.length +
            ((r * 256 + b) % 10 * 256 ^ rest.length + beVal rest) := by rw [h1]
      _ = (10 * ((r * 256 + b) / 10) + (r * 256 + b) % 10) * 256 ^ rest.length +
            beVal rest := by ring
      _ = (r * 256 + b) * 256 ^ rest.length + beVal rest := by rw [hdm]
      _ = r * 256 ^ (rest.length + 1) + (b * 256 ^ rest.length + beVal rest) := by ring

lemma divStep_fst (w : List Nat) : beVal (divStep w).1 = beVal w / 10 := by
  obtain ⟨h1, h2⟩ := divStepGo_spec w 0 (by norm_num)
  simp only [divStep]
  omega

lemma divStep_snd (w : List Nat) : (divStep w).2 = beVal w % 10 := by
  obtain ⟨h1, h2⟩ := divStepGo_spec w 0 (by norm_num)
  simp only [divStep]
  omega

lemma beVal_eq_zero_iff (l : List Nat) : beVal l = 0 ↔ l.all (· == 0) = true := by
  induction l with
  | nil => simp [beVal]
  | cons b rest ih =>
    have hp : 256 ^ rest.length ≠ 0 := pow_ne_zero _ (by norm_num)
    simp [beVal, List.all_cons, ← ih, Nat.add_eq_zero, Nat.mul_eq_zero, hp]

lemma beVal_lt (l : List Nat) (h : ∀ b ∈ l, b < 256) : beVal l < 256 ^ l.length := by
  induction l with
  | nil => simp [beVal]
  | cons b rest ih =>
    have hb : b ≤ 255 := by have := h b (by simp); omega
    have hr : beVal rest < 256 ^ rest.length := ih fun x hx => h x (by simp [hx])
    simp only [beVal, List.length_cons, pow_succ]
    calc b * 256 ^ rest.length + beVal rest
        < b * 256 ^ rest.length + 256 ^ rest.length := by omega
      _ = (b + 1) * 256 ^ rest.length := by ring
      _ ≤ 256 * 256 ^ rest.length := Nat.mul_le_mul_right _ (by omega)
      _ = 256 ^ rest.length * 256 := by ring

/- Lemmas connecting the digit-extraction loop with the mathematical
decimal representation. -/

lemma natDigitsGo_congr : ∀ f₁ f₂ v : Nat, v < 10 ^ f₁ → v < 10 ^ f₂ →
    natDigitsGo f₁ v = natDigitsGo f₂ v := by
  intro f₁
  induction f₁ with
  | zero =>
    intro f₂ v h1 _
    have hv : v = 0 := by simpa using h1
    subst hv
    cases f₂ <;> simp [natDigitsGo]
  | succ a ih =>
    intro f₂ v h1 h2
    cases f₂ with
    | zero =>
      have hv : v = 0 := by simpa using h2
      subst hv
      simp [natDigitsGo]
    | succ b =>
      simp only [natDigitsGo]
      by_cases hv : v = 0
      · simp [hv]
      · have ha : v / 10 < 10 ^ a :=
          (Nat.div_lt_iff_lt_mul (by norm_num)).mpr (by rw [← pow_succ]; exact h1)
        have hb : v / 10 < 10 ^ b :=
          (Nat.div_lt_iff_lt_mul (by norm_num)).mpr (by rw [← pow_succ]; exact h2)
        simp [hv, ih b (v / 10) ha hb]

lemma digitsGo_eq : ∀ (fuel : Nat) (work : List Nat), beVal work < 10 ^ fuel →
    digitsGo fuel work = natDigitsGo fuel (beVal work) := by
  intro fuel
  induction fuel with
  | zero => intro w _; simp [digitsGo, natDigitsGo]
  | succ a ih =>
    intro w h
    simp only [digitsGo, natDigitsGo]
    by_cases hz : w.all (· == 0)
    · have hv : beVal w = 0 := (beVal_eq_zero_iff w).mpr hz
      simp [hz, hv]
    · have hv : beVal w ≠ 0 := fun hh => hz ((beVal_eq_zero_iff w).mp hh)
      have hb : beVal (divStep w).1 < 10 ^ a := by
        rw [divStep_fst]
        exact (Nat.div_lt_iff_lt_mul (by norm_num)).mpr (by rw [← pow_succ]; exact h)
      simp [hz, hv, ih (divStep w).1 hb, divStep_fst, divStep_snd]

lemma digitsLoop_eq (w : List Nat) : digitsLoop w = natDigits (beVal w) := by
  have h : beVal w < 10 ^ (beVal w + 1) :=
    lt_of_lt_of_le (Nat.lt_pow_self (by norm_num) _)
      (Nat.pow_le_pow_right (by norm_num) (Nat.le_succ _))
  exact digitsGo_eq _ _ h

lemma natDigits_eq (v : Nat) :
    natDigits v = if v = 0 then [] else natDigits (v / 10) ++ [Char.ofNat (48 + v % 10)] := by
  have key : natDigits v =
      if v = 0 then [] else natDigitsGo v (v / 10) ++ [Char.ofNat (48 + v % 10)] := rfl
  by_cases hv : v = 0
  · simp [hv, natDigits, natDigitsGo]
  · rw [key, if_neg hv, if_neg hv]
    have hdiv1 : v / 10 < 10 ^ v :=
      lt_of_le_of_lt (Nat.div_le_self _ _) (Nat.lt_pow_self (by norm_num) _)
    have hdiv2 : v / 10 < 10 ^ (v / 10 + 1) :=
      lt_of_lt_of_le (Nat.lt_pow_self (by norm_num) _)
        (Nat.pow_le_pow_right (by norm_num) (Nat.le_succ _))
    rw [natDigitsGo_congr v (v / 10 + 1) (v / 10) hdiv1 hdiv2]
    rfl

lemma natDigits_length_le : ∀ n v : Nat, (natDigits v).length ≤ n ↔ v < 10 ^ n := by
  intro n
  induction n with
  | zero =>
    intro v
    rw [natDigits_eq]
    by_cases hv : v = 0
    · simp [hv]
    · simp only [if_neg hv, List.length_append, List.length_singleton]
      constructor
      · omega
      · intro h; omega
  | succ k ih =>
    intro v
    rw [natDigits_eq]
    by_cases hv : v = 0
    · subst hv
      rw [if_pos rfl]
      simp only [List.length_nil]
      constructor
      · intro _; exact Nat.pos_pow_of_pos _ (by norm_num)
      · intro _; exact Nat.zero_le _
    · simp only [if_neg hv, List.length_append, List.length_singleton]
      have : (natDigits (v / 10)).length + 1 ≤ k + 1 ↔ (natDigits (v / 10)).length ≤ k := by
        omega
      rw [this, ih (v / 10), Nat.div_lt_iff_lt_mul (by norm_num), ← pow_succ]

lemma natDigits_zero : natDigits 0 = [] := rfl

lemma natDigits_ne_nil {v : Nat} (hv : v ≠ 0) : natDigits v ≠ [] := by
  intro h
  have : (natDigits v).length ≤ 0 := by rw [h]; exact le_refl _
  have : v < 10 ^ 0 := (natDigits_length_le 0 v).mp this
  omega

/- Facts about the 21-character zero-padded decimal representation. -/

lemma decRep_length_pos (v : Nat) : 0 < (decRep v).length := by
  unfold decRep
  by_cases hv : v = 0
  · simp [hv]
  · simp only [if_neg hv]
    exact List.length_pos.mpr (natDigits_ne_nil hv)

lemma decRep_length_le {v : Nat} (h : v < 10 ^ 21) : (decRep v).length ≤ 21 := by
  unfold decRep
  by_cases hv : v = 0
  · simp [hv]
  · simp only [if_neg hv]
    exact (natDigits_length_le 21 v).mpr h

lemma padDecimal_length {v : Nat} (h : v < 10 ^ 21) : (padDecimal v).length = 21 := by
  have h1 := decRep_length_le h
  simp [padDecimal, List.length_append, List.length_replicate]
  omega

lemma padDecimal_zero : padDecimal 0 = List.replicate 21 '0' := by decide

lemma char_ofNat_digit_isDigit {d : Nat} (hd : d < 10) :
    (Char.ofNat (48 + d)).isDigit = true := by
  interval_cases d <;> decide

lemma char_ofNat_digit_toNat {d : Nat} (hd : d < 10) :
    (Char.ofNat (48 + d)).toNat = 48 + d := by
  interval_cases d <;> decide

lemma natDigitsGo_all_digit : ∀ fuel v : Nat, ∀ c ∈ natDigitsGo fuel v, c.isDigit = true := by
  intro fuel
  induction fuel with
  | zero => intro v c hc; simp [natDigitsGo] at hc
  | succ a ih =>
    intro v c hc
    simp only [natDigitsGo] at hc
    by_cases hv : v = 0
    · simp [hv] at hc
    · rw [if_neg hv] at hc
      rcases List.mem_append.mp hc with h | h
      · exact ih (v / 10) c h
      · rw [List.mem_singleton.mp h]
        exact char_ofNat_digit_isDigit (Nat.mod_lt _ (by norm_num))

lemma padDecimal_all_digit (v : Nat) : ∀ c ∈ padDecimal v, c.isDigit = true := by
  intro c hc
  rcases List.mem_append.mp hc with h | h
  · rw [List.eq_of_mem_replicate h]; decide
  · unfold decRep at h
    by_cases hv : v = 0
    · rw [if_pos hv] at h
      rw [List.mem_singleton.mp h]; decide
    · rw [if_neg hv] at h
      exact natDigitsGo_all_digit _ _ c h

/- The decimal value denoted by the padded representation. -/

lemma digitsVal_go_natDigitsGo : ∀ (fuel v : Nat), v < 10 ^ fuel → ∀ acc : Nat,
    List.foldl (fun acc c => acc * 10 + (c.toNat - 48)) acc (natDigitsGo fuel v) =
      acc * 10 ^ (natDigitsGo fuel v).length + v := by
  intro fuel
  induction fuel with
  | zero =>
    intro v h acc
    have hv : v = 0 := by simpa using h
    simp [hv, natDigitsGo]
  | succ a ih =>
    intro v h acc
    by_cases hv : v = 0
    · simp [hv, natDigitsGo]
    · have hdiv : v / 10 < 10 ^ a :=
        (Nat.div_lt_iff_lt_mul (by norm_num)).mpr (by rw [← pow_succ]; exact h)
      simp only [natDigitsGo, if_neg hv, List.foldl_append, List.length_append,
        List.length_singleton, List.foldl_cons, List.foldl_nil]
      rw [ih (v / 10) hdiv acc]
      rw [char_ofNat_digit_toNat (Nat.mod_lt _ (by norm_num))]
      have : 48 + v % 10 - 48 = v % 10 := by omega
      rw [this]
      have hdm : 10 * (v / 10) + v % 10 = v := Nat.div_add_mod v 10
      calc (acc * 10 ^ (natDigitsGo a (v / 10)).length + v / 10) * 10 + v % 10
          = acc * (10 ^ (natDigitsGo a (v / 10)).length * 10) +
              (10 * (v / 10) + v % 10) := by ring
        _ = acc * 10 ^ ((natDigitsGo a (v / 10)).length + 1) + v := by rw [hdm, pow_succ]

lemma digitsVal_replicate_zero (k : Nat) :
    List.foldl (fun acc c => acc * 10 + (c.toNat - 48)) 0 (List.replicate k '0') = 0 := by
  induction k with
  | zero => rfl
  | succ n ih => simpa [List.replicate_succ] using ih

lemma digitsVal_padDecimal {v : Nat} (_h : v < 10 ^ 21) : digitsVal (padDecimal v) = v := by
  unfold digitsVal padDecimal
  rw [List.foldl_append, digitsVal_replicate_zero]
  unfold decRep
  by_cases hv : v = 0
  · simp [hv]
  · rw [if_neg hv]
    have := digitsVal_go_natDigitsGo (v + 1) v
      (lt_of_lt_of_le (Nat.lt_pow_self (by norm_num) _)
        (Nat.pow_le_pow_right (by norm_num) (Nat.le_succ _))) 0
    simpa [natDigits] using this

/- Correctness of the converter against the specification-side padded
decimal representation. -/

lemma tryConvert_eq (hash : List Nat) :
    try_convert_hash hash =
      if beVal (hash.take 9) < 10 ^ 21 then some (padDecimal (beVal (hash.take 9)))
      else none := by
  have hwork : beVal (0 :: hash.take 9) = beVal (hash.take 9) := by simp [beVal]
  simp only [try_convert_hash]
  rw [digitsLoop_eq, hwork]
  by_cases h0 : beVal (hash.take 9) = 0
  · rw [h0]
    simp [natDigits_zero, padDecimal, decRep]
  · have hne : (natDigits (beVal (hash.take 9))).length ≠ 0 := by
      intro h
      exact natDigits_ne_nil h0 (List.length_eq_zero.mp h)
    rw [if_neg hne]
    by_cases hlt : beVal (hash.take 9) < 10 ^ 21
    · have hlen : (natDigits (beVal (hash.take 9))).length ≤ 21 :=
        (natDigits_length_le 21 _).mpr hlt
      rw [if_neg (by omega), if_pos hlt]
      simp [padDecimal, decRep, if_neg h0]
    · have hlen : ¬(natDigits (beVal (hash.take 9))).length ≤ 21 := by
        intro h
        exact hlt ((natDigits_length_le 21 _).mp h)
      rw [if_pos (by omega), if_neg hlt]

lemma tryConvert_none_iff (hash : List Nat) :
    try_convert_hash hash = none ↔ 10 ^ 21 ≤ beVal (hash.take 9) := by
  rw [tryConvert_eq]
  by_cases h : beVal (hash.take 9) < 10 ^ 21
  · rw [if_pos h]
    constructor
    · intro hh; simp at hh
    · intro hh; exact absurd hh (by omega)
  · rw [if_neg h]
    exact ⟨fun _ => by omega, fun _ => rfl⟩

/- Lemmas about the rejection-sampling loop. -/

lemma deriveRounds_ok_of_find? (digest : Nat → List Nat) :
    ∀ (rs : List Nat) (r : Nat),
      rs.find? (fun i => decide (beVal ((digest i).take 9) < 10 ^ 21)) = some r →
      deriveRounds digest rs =
        .ok { full := padDecimal (beVal ((digest r).take 9)),
              display := (padDecimal (beVal ((digest r).take 9))).take MOBI_DISPLAY_LEN,
              extended := (padDecimal (beVal ((digest r).take 9))).take MOBI_EXTENDED_LEN,
              lng := (padDecimal (beVal ((digest r).take 9))).take MOBI_LONG_LEN } := by
  intro rs
  induction rs with
  | nil => intro r hfind; simp [List.find?] at hfind
  | cons a rest ih =>
    intro r hfind
    by_cases hp : beVal ((digest a).take 9) < 10 ^ 21
    · rw [List.find?_cons_of_pos _ (by simpa using hp)] at hfind
      have hr : r = a := by simpa using hfind.symm
      subst hr
      simp only [deriveRounds, tryConvert_eq, if_pos hp]
    · rw [List.find?_cons_of_neg _ (by simpa using hp)] at hfind
      have hnone : try_convert_hash (digest a) = none := by
        rw [tryConvert_eq, if_neg hp]
      simp only [deriveRounds, hnone]
      exact ih r hfind

lemma deriveRounds_error_of_all_none (digest : Nat → List Nat) :
    ∀ rs : List Nat, (∀ r ∈ rs, try_convert_hash (digest r) = none) →
      deriveRounds digest rs = .error .MOBI_ERR_INVALID_LEN := by
  intro rs
  induction rs with
  | nil => intro _; rfl
  | cons a rest ih =>
    intro h
    have ha : try_convert_hash (digest a) = none := h a (by simp)
    simp only [deriveRounds, ha]
    exact ih fun r hr => h r (by simp [hr])

lemma deriveRounds_ok_inv (digest : Nat → List Nat) :
    ∀ (rs : List Nat) (m : mobi_t), deriveRounds digest rs = .ok m →
      ∃ r ∈ rs, try_convert_hash (digest r) = some m.full ∧
        m.display = m.full.take MOBI_DISPLAY_LEN ∧
        m.extended = m.full.take MOBI_EXTENDED_LEN ∧
        m.lng = m.full.take MOBI_LONG_LEN := by
  intro rs
  induction rs with
  | nil => intro m hm; simp [deriveRounds] at hm
  | cons a rest ih =>
    intro m hm
    simp only [deriveRounds] at hm
    cases hconv : try_convert_hash (digest a) with
    | some full =>
      rw [hconv] at hm
      have hmm := (Except.ok.injEq _ _).mp hm
      refine ⟨a, by simp, ?_, ?_, ?_, ?_⟩ <;> (rw [← hmm]; try simp [hconv])
    | none =>
      rw [hconv] at hm
      obtain ⟨r, hr, hrest⟩ := ih m hm
      exact ⟨r, by simp [hr], hrest⟩

lemma deriveRounds_total (digest : Nat → List Nat) :
    ∀ rs : List Nat, (∃ m, deriveRounds digest rs = .ok m) ∨
      deriveRounds digest rs = .error .MOBI_ERR_INVALID_LEN := by
  intro rs
  induction rs with
  | nil => exact Or.inr rfl
  | cons a rest ih =>
    cases hconv : try_convert_hash (digest a) with
    | some full =>
      exact Or.inl ⟨{ full := full,
                      display := full.take MOBI_DISPLAY_LEN,
                      extended := full.take MOBI_EXTENDED_LEN,
                      lng := full.take MOBI_LONG_LEN },
        by simp [deriveRounds, hconv]⟩
    | none =>
      rcases ih with ⟨m, hm⟩ | herr
      · exact Or.inl ⟨m, by simp [deriveRounds, hconv, hm]⟩
      · exact Or.inr (by simp [deriveRounds, hconv, herr])

/- Lemmas about the normalization scanning loop. -/

lemma normalize_go_ok (out_len : Nat) :
    ∀ (l : List Char) (dc : Nat), (∀ c ∈ l, normChar c) →
      dc + l.countP (fun c => c.isDigit) < out_len →
      mobi_normalize_go out_len l dc = .ok (l.filter fun c => c.isDigit) := by
  intro l
  induction l with
  | nil => intro dc _ _; rfl
  | cons c rest ih =>
    intro dc hall hcap
    have hc := hall c (by simp)
    by_cases hd : c.isDigit
    · have hcnt : (c :: rest).countP (fun c => c.isDigit) =
          rest.countP (fun c => c.isDigit) + 1 := List.countP_cons_of_pos _ _ (by simpa using hd)
      rw [hcnt] at hcap
      have hguard : dc < out_len - 1 := by omega
      have hrec := ih (dc + 1) (fun x hx => hall x (by simp [hx])) (by omega)
      simp only [mobi_normalize_go, if_pos hguard, hd, if_pos, hrec]
      simp [List.filter_cons_of_pos (by simpa using hd), hd]
    · have hsep : c = '-' ∨ c = ' ' ∨ c = '.' ∨ c = '(' ∨ c = ')' := by
        rcases hc with h | h
        · exact absurd h hd
        · exact h
      have hcnt : (c :: rest).countP (fun c => c.isDigit) =
          rest.countP (fun c => c.isDigit) := List.countP_cons_of_neg _ _ (by simpa using hd)
      rw [hcnt] at hcap
      have hfilter : (c :: rest).filter (fun c => c.isDigit) =
          rest.filter fun c => c.isDigit := List.filter_cons_of_neg (by simpa using hd)
      rw [hfilter]
      by_cases hguard : dc < out_len - 1
      · have hrec := ih dc (fun x hx => hall x (by simp [hx])) hcap
        simp only [mobi_normalize_go, if_pos hguard, hd, if_neg, hsep, if_pos, hrec]
        simp [hd, hsep]
      · have hdc : dc = out_len - 1 := by omega
        have hcnt0 : rest.countP (fun c => c.isDigit) = 0 := by omega
        have hlen0 : (rest.filter fun c => c.isDigit).length = 0 := by
          rw [← List.countP_eq_length_filter]
          exact hcnt0
        rw [List.length_eq_zero.mp hlen0]
        simp [mobi_normalize_go, hguard]

lemma normalize_go_error (out_len : Nat) :
    ∀ (l : List Char) (dc : Nat), dc + l.length < out_len →
      (∃ c ∈ l, ¬normChar c) →
      mobi_normalize_go out_len l dc = .error .MOBI_ERR_INVALID_CHAR := by
  intro l
  induction l with
  | nil => intro dc _ hex; simp at hex
  | cons c rest ih =>
    intro dc hcap hex
    have hguard : dc < out_len - 1 := by simp at hcap; omega
    by_cases hc : normChar c
    · have hex2 : ∃ x ∈ rest, ¬normChar x := by
        rcases hex with ⟨x, hx, hnx⟩
        rcases List.mem_cons.mp hx with rfl | hx2
        · exact absurd hc hnx
        · exact ⟨x, hx2, hnx⟩
      by_cases hd : c.isDigit
      · have hrec := ih (dc + 1) (by simp at hcap ⊢; omega) hex2
        simp [mobi_normalize_go, hguard, hd, hrec]
      · have hsep : c = '-' ∨ c = ' ' ∨ c = '.' ∨ c = '(' ∨ c = ')' := by
          rcases hc with h | h
          · exact absurd h hd
          · exact h
        have hrec := ih dc (by simp at hcap ⊢; omega) hex2
        simp [mobi_normalize_go, hguard, hd, hsep, hrec]
    · have hd : ¬c.isDigit = true := fun h => hc (Or.inl h)
      have hsep : ¬(c = '-' ∨ c = ' ' ∨ c = '.' ∨ c = '(' ∨ c = ')') :=
        fun h => hc (Or.inr h)
      simp [mobi_normalize_go, hguard, hd, hsep]

lemma normalize_go_capacity (out_len : Nat) :
    ∀ (pre post : List Char) (dc : Nat), (∀ c ∈ pre, c.isDigit = true) →
      dc + pre.length = out_len - 1 →
      mobi_normalize_go out_len (pre ++ post) dc = .ok pre := by
  intro pre
  induction pre with
  | nil =>
    intro post dc _ hdc
    simp only [List.length_nil, Nat.add_zero] at hdc
    cases post with
    | nil => rfl
    | cons c rest =>
      have hguard : ¬dc < out_len - 1 := by omega
      simp [mobi_normalize_go, hguard]
  | cons c rest ih =>
    intro post dc hall hdc
    have hd : c.isDigit = true := hall c (by simp)
    have hguard : dc < out_len - 1 := by simp at hdc; omega
    have hrec := ih post (dc + 1) (fun x hx => hall x (by simp [hx])) (by simp at hdc; omega)
    simp [mobi_normalize_go, hguard, hd, hrec]

/- Round-trip helpers: the hyphen-formatted rendering of an all-digit
field filters back to the field itself. -/

lemma drop_split3 (l : List Char) (i : Nat) :
    l.drop i = (l.drop i).take 3 ++ l.drop (i + 3) := by
  have h := (List.take_append_drop 3 (l.drop i)).symm
  rw [List.drop_drop] at h
  exact h

lemma group3_concat_display (l : List Char) (h : l.length = 12) :
    group3 l 0 ++ (group3 l 3 ++ (group3 l 6 ++ group3 l 9)) = l := by
  have h9 : (l.drop 9).take 3 = l.drop 9 := List.take_of_length_le (by simp [h])
  have e0 : l = l.take 3 ++ l.drop 3 := (List.take_append_drop 3 l).symm
  have e3 : l.drop 3 = (l.drop 3).take 3 ++ l.drop 6 := by
    have := drop_split3 l 3; norm_num at this; exact this
  have e6 : l.drop 6 = (l.drop 6).take 3 ++ l.drop 9 := by
    have := drop_split3 l 6; norm_num at this; exact this
  simp only [group3, List.drop_zero]
  rw [h9, ← e6, ← e3, ← e0]

lemma group3_concat_extended (l : List Char) (h : l.length = 15) :
    group3 l 0 ++ (group3 l 3 ++ (group3 l 6 ++ (group3 l 9 ++ group3 l 12))) = l := by
  have h12 : (l.drop 12).take 3 = l.drop 12 := List.take_of_length_le (by simp [h])
  have e0 : l = l.take 3 ++ l.drop 3 := (List.take_append_drop 3 l).symm
  have e3 : l.drop 3 = (l.drop 3).take 3 ++ l.drop 6 := by
    have := drop_split3 l 3; norm_num at this; exact this
  have e6 : l.drop 6 = (l.drop 6).take 3 ++ l.drop 9 := by
    have := drop_split3 l 6; norm_num at this; exact this
  have e9 : l.drop 9 = (l.drop 9).take 3 ++ l.drop 12 := by
    have := drop_split3 l 9; norm_num at this; exact this
  simp only [group3, List.drop_zero]
  rw [h12, ← e9, ← e6, ← e3, ← e0]

lemma group3_concat_full (l : List Char) (h : l.length = 21) :
    group3 l 0 ++ (group3 l 3 ++ (group3 l 6 ++ (group3 l 9 ++
      (group3 l 12 ++ (group3 l 15 ++ group3 l 18))))) = l := by
  have h18 : (l.drop 18).take 3 = l.drop 18 := List.take_of_length_le (by simp [h])
  have e0 : l = l.take 3 ++ l.drop 3 := (List.take_append_drop 3 l).symm
  have e3 : l.drop 3 = (l.drop 3).take 3 ++ l.drop 6 := by
    have := drop_split3 l 3; norm_num at this; exact this
  have e6 : l.drop 6 = (l.drop 6).take 3 ++ l.drop 9 := by
    have := drop_split3 l 6; norm_num at this; exact this
  have e9 : l.drop 9 = (l.drop 9).take 3 ++ l.drop 12 := by
    have := drop_split3 l 9; norm_num at this; exact this
  have e12 : l.drop 12 = (l.drop 12).take 3 ++ l.drop 15 := by
    have := drop_split3 l 12; norm_num at this; exact this
  have e15 : l.drop 15 = (l.drop 15).take 3 ++ l.drop 18 := by
    have := drop_split3 l 15; norm_num at this; exact this
  simp only [group3, List.drop_zero]
  rw [h18, ← e15, ← e12, ← e9, ← e6, ← e3, ← e0]

lemma group3_filter (l : List Char) (hd : ∀ c ∈ l, c.isDigit = true) (i : Nat) :
    (group3 l i).filter (fun c => c.isDigit) = group3 l i :=
  List.filter_eq_self.mpr fun a ha =>
    hd a ((List.drop_sublist i l).subset ((List.take_sublist 3 (l.drop i)).subset ha))

lemma group3_mem {l : List Char} {i : Nat} {c : Char} (hc : c ∈ group3 l i) : c ∈ l :=
  (List.drop_sublist i l).subset ((List.take_sublist 3 (l.drop i)).subset hc)

lemma filter_dash : List.filter (fun c => c.isDigit) ['-'] = [] := rfl

lemma filter_format_display (m : mobi_t) (h : m.display.length = 12)
    (hd : ∀ c ∈ m.display, c.isDigit = true) :
    (mobi_format_display m).filter (fun c => c.isDigit) = m.display := by
  simp only [mobi_format_display, List.filter_append, filter_dash, group3_filter _ hd,
    List.nil_append, List.append_nil, List.append_assoc]
  exact group3_concat_display _ h

lemma filter_format_extended (m : mobi_t) (h : m.extended.length = 15)
    (hd : ∀ c ∈ m.extended, c.isDigit = true) :
    (mobi_format_extended m).filter (fun c => c.isDigit) = m.extended := by
  simp only [mobi_format_extended, List.filter_append, filter_dash, group3_filter _ hd,
    List.nil_append, List.append_nil, List.append_assoc]
  exact group3_concat_extended _ h

lemma filter_format_full (m : mobi_t) (h : m.full.length = 21)
    (hd : ∀ c ∈ m.full, c.isDigit = true) :
    (mobi_format_full m).filter (fun c => c.isDigit) = m.full := by
  simp only [mobi_format_full, List.filter_append, filter_dash, group3_filter _ hd,
    List.nil_append, List.append_nil, List.append_assoc]
  exact group3_concat_full _ h

lemma format_normChar_display (m : mobi_t) (hd : ∀ c ∈ m.display, c.isDigit = true) :
    ∀ c ∈ mobi_format_display m, normChar c := by
  intro c hc
  simp only [mobi_format_display, List.mem_append, List.mem_singleton] at hc
  rcases hc with ((((((h | h) | h) | h) | h) | h) | h) <;>
    first
      | exact Or.inl (hd c (group3_mem h))
      | exact Or.inr (Or.inl h)

lemma format_normChar_extended (m : mobi_t) (hd : ∀ c ∈ m.extended, c.isDigit = true) :
    ∀ c ∈ mobi_format_extended m, normChar c := by
  intro c hc
  simp only [mobi_format_extended, List.mem_append, List.mem_singleton] at hc
  rcases hc with ((((((((h | h) | h) | h) | h) | h) | h) | h) | h) <;>
    first
      | exact Or.inl (hd c (group3_mem h))
      | exact Or.inr (Or.inl h)

lemma format_normChar_full (m : mobi_t) (hd : ∀ c ∈ m.full, c.isDigit = true) :
    ∀ c ∈ mobi_format_full m, normChar c := by
  intro c hc
  simp only [mobi_format_full, List.mem_append, List.mem_singleton] at hc
  rcases hc with ((((((((((((h | h) | h) | h) | h) | h) | h) | h) | h) | h) | h) | h) | h) <;>
    first
      | exact Or.inl (hd c (group3_mem h))
      | exact Or.inr (Or.inl h)

lemma self_lt_ten_pow_succ (v : Nat) : v < 10 ^ (v + 1) :=
  lt_of_lt_of_le (Nat.lt_pow_self (by norm_num) _)
    (Nat.pow_le_pow_right (by norm_num) (Nat.le_succ _))

/- Claim theorems. -/

/-- C1: for every 32-byte public key, `mobi_derive_bytes` follows the
specified rejection-sampling algorithm: round 0 hashes the key alone,
round r (1 ≤ r ≤ 255) hashes the key followed by the single byte r, each
round reads the first 9 digest bytes as a big-endian 72-bit integer, and
the first round whose value is below 10 ^ 21 is accepted, the output
`full` field being the 21-character left-zero-padded decimal
representation of that value. -/
theorem claim1_rejection_sampling (pubkey : List Nat) (r : Nat)
    (hk : pubkey.length = MOBI_PUBKEY_LEN)
    (hfind : (List.range MOBI_MAX_ROUNDS).find?
      (fun i => decide (sampleVal pubkey i < 10 ^ 21)) = some r) :
    (∀ i, i < MOBI_MAX_ROUNDS →
      roundDigest pubkey i = if i = 0 then sha256 pubkey else sha256 (pubkey ++ [i])) ∧
    mobi_derive_bytes pubkey =
      .ok { full := padDecimal (sampleVal pubkey r),
            display := (padDecimal (sampleVal pubkey r)).take MOBI_DISPLAY_LEN,
            extended := (padDecimal (sampleVal pubkey r)).take MOBI_EXTENDED_LEN,
            lng := (padDecimal (sampleVal pubkey r)).take MOBI_LONG_LEN } := by
  constructor
  · intro i hi
    unfold roundDigest
    have htake : pubkey.take MOBI_PUBKEY_LEN = pubkey := List.take_of_length_le (by rw [hk])
    by_cases h0 : i = 0
    · rw [if_pos h0, if_pos h0, htake]
    · rw [if_neg h0, if_neg h0, htake]
      have hmod : i % 256 = i := Nat.mod_eq_of_lt (by simpa [MOBI_MAX_ROUNDS] using hi)
      rw [hmod]
  · exact deriveRounds_ok_of_find? (roundDigest pubkey) (List.range MOBI_MAX_ROUNDS) r hfind

/-- C1 witness: the all-zero key satisfies the hypotheses, round 1 being
the first accepted round. -/
theorem claim1_rejection_sampling_witness :
    (List.replicate 32 0).length = MOBI_PUBKEY_LEN ∧
    (List.range MOBI_MAX_ROUNDS).find?
      (fun i => decide (sampleVal (List.replicate 32 0) i < 10 ^ 21)) = some 1 ∧
    mobi_derive_bytes (List.replicate 32 0) =
      .ok { full := padDecimal (sampleVal (List.replicate 32 0) 1),
            display := (padDecimal (sampleVal (List.replicate 32 0) 1)).take MOBI_DISPLAY_LEN,
            extended := (padDecimal (sampleVal (List.replicate 32 0) 1)).take MOBI_EXTENDED_LEN,
            lng := (padDecimal (sampleVal (List.replicate 32 0) 1)).take MOBI_LONG_LEN } :=
  ⟨by decide, by decide,
    (claim1_rejection_sampling (List.replicate 32 0) 1 (by decide) (by decide)).2⟩

/-- C2: the two documented test vectors hold: the all-zero 32-byte key
yields full 587135537154686717107 and display 587135537154, and the
documented hex key yields full 879044656584686196443 and display
879044656584. -/
theorem claim2_test_vectors :
    (∃ m, mobi_derive_bytes (List.replicate 32 0) = Except.ok m ∧
      m.full = "587135537154686717107".data ∧ m.display = "587135537154".data) ∧
    (∃ m, mobi_derive
        "17162c921dc4d2518f9a101db33695df1afb56ab82f5ff3e5da6eec3ca5cd917".data =
          Except.ok m ∧
      m.full = "879044656584686196443".data ∧ m.display = "879044656584".data) :=
  ⟨⟨mZero, by decide, rfl, rfl⟩, ⟨mTest, by decide, rfl, rfl⟩⟩

/-- C3 counterexample: on a digest stream in which all 256 rounds reject,
the rejection loop of `mobi_derive_bytes` returns exactly the error code
`MOBI_ERR_INVALID_LEN`, i.e. the InvalidLength code, contradicting the
claim that exhaustion is reported by an error code different from
InvalidLength. -/
theorem claim3_exhaustion_counterexample :
    ((List.range MOBI_MAX_ROUNDS).all fun r =>
      decide (10 ^ 21 ≤ beVal ((constRejectDigest r).take 9))) = true ∧
    deriveRounds constRejectDigest (List.range MOBI_MAX_ROUNDS) =
      .error .MOBI_ERR_INVALID_LEN :=
  ⟨by decide, by decide⟩

/-- C3 (amended): if all 256 rounds of the rejection-sampling loop
reject, the loop fails with the reused error code `MOBI_ERR_INVALID_LEN`
(there is no distinct SamplingExhausted code in the enum) and never falls
back to a biased modulo reduction of the sampled value. -/
theorem claim3_exhaustion_error (digest : Nat → List Nat)
    (h : ∀ r ∈ List.range MOBI_MAX_ROUNDS, try_convert_hash (digest r) = none) :
    deriveRounds digest (List.range MOBI_MAX_ROUNDS) = .error .MOBI_ERR_INVALID_LEN :=
  deriveRounds_error_of_all_none digest _ h

/-- C3 witness: the all-0xff digest stream rejects in every round. -/
theorem claim3_exhaustion_error_witness :
    ((List.range MOBI_MAX_ROUNDS).all fun r =>
      try_convert_hash (constRejectDigest r) == none) = true ∧
    deriveRounds constRejectDigest (List.range MOBI_MAX_ROUNDS) =
      .error .MOBI_ERR_INVALID_LEN :=
  ⟨by decide, claim3_exhaustion_error constRejectDigest (by decide)⟩

/-- C4: on every 9-byte input the converter succeeds exactly when the
big-endian value v is below 10 ^ 21, producing the 21-character
left-zero-padded decimal representation of v (21 zero characters when
v = 0), and rejects every input of 22 or more decimal digits. -/
theorem claim4_converter (hash : List Nat) (h9 : hash.length = 9) :
    try_convert_hash hash =
      (if beVal hash < 10 ^ 21 then some (padDecimal (beVal hash)) else none) ∧
    (beVal hash < 10 ^ 21 → (padDecimal (beVal hash)).length = 21) ∧
    padDecimal 0 = List.replicate 21 '0' := by
  have htake : hash.take 9 = hash := List.take_of_length_le (by omega)
  refine ⟨?_, fun h => padDecimal_length h, padDecimal_zero⟩
  have h := tryConvert_eq hash
  rw [htake] at h
  exact h

/-- C4 witness: the all-zero 9-byte input. -/
theorem claim4_converter_witness :
    (List.replicate 9 0).length = 9 ∧
    try_convert_hash (List.replicate 9 0) =
      (if beVal (List.replicate 9 0) < 10 ^ 21
       then some (padDecimal (beVal (List.replicate 9 0))) else none) :=
  ⟨by decide, (claim4_converter (List.replicate 9 0) (by decide)).1⟩

/-- C5: whenever `mobi_derive_bytes` succeeds, the produced identifier
satisfies the nested-prefix invariant (display, extended and long are the
12-, 15- and 18-character prefixes of full), every character of every
field is an ASCII decimal digit, and the integer value of full is below
10 ^ 21. -/
theorem claim5_invariants (pubkey : List Nat) (m : mobi_t)
    (h : mobi_derive_bytes pubkey = Except.ok m) :
    m.display = m.full.take 12 ∧ m.extended = m.full.take 15 ∧ m.lng = m.full.take 18 ∧
    m.full.all Char.isDigit = true ∧ m.display.all Char.isDigit = true ∧
    m.extended.all Char.isDigit = true ∧ m.lng.all Char.isDigit = true ∧
    digitsVal m.full < 10 ^ 21 := by
  obtain ⟨r, _, hconv, hdisp, hext, hlng⟩ :=
    deriveRounds_ok_inv (roundDigest pubkey) (List.range MOBI_MAX_ROUNDS) m h
  rw [tryConvert_eq] at hconv
  by_cases hlt : beVal ((roundDigest pubkey r).take 9) < 10 ^ 21
  case neg => rw [if_neg hlt] at hconv; simp at hconv
  rw [if_pos hlt] at hconv
  have hfull : m.full = padDecimal (beVal ((roundDigest pubkey r).take 9)) :=
    (Option.some.inj hconv).symm
  have hfd : ∀ c ∈ m.full, c.isDigit = true := fun c hc =>
    padDecimal_all_digit _ c (hfull ▸ hc)
  have hall : m.full.all Char.isDigit = true := List.all_eq_true.mpr hfd
  refine ⟨hdisp, hext, hlng, hall, ?_, ?_, ?_, ?_⟩
  · exact List.all_eq_true.mpr fun c hc =>
      hfd c ((List.take_sublist _ _).subset (hdisp ▸ hc))
  · exact List.all_eq_true.mpr fun c hc =>
      hfd c ((List.take_sublist _ _).subset (hext ▸ hc))
  · exact List.all_eq_true.mpr fun c hc =>
      hfd c ((List.take_sublist _ _).subset (hlng ▸ hc))
  · rw [hfull, digitsVal_padDecimal hlt]
    exact hlt

/-- C5 witness: the identifier derived from the all-zero key. -/
theorem claim5_invariants_witness :
    mobi_derive_bytes (List.replicate 32 0) = Except.ok mZero ∧
    (mZero.display = mZero.full.take 12 ∧ mZero.extended = mZero.full.take 15 ∧
     mZero.lng = mZero.full.take 18 ∧ mZero.full.all Char.isDigit = true ∧
     mZero.display.all Char.isDigit = true ∧ mZero.extended.all Char.isDigit = true ∧
     mZero.lng.all Char.isDigit = true ∧ digitsVal mZero.full < 10 ^ 21) :=
  ⟨by decide, claim5_invariants (List.replicate 32 0) mZero (by decide)⟩

/-- C6: derivation is deterministic: two successful invocations of
`mobi_derive_bytes` on the same key produce identifiers whose four fields
coincide. -/
theorem claim6_determinism (pubkey : List Nat) (m₁ m₂ : mobi_t)
    (h₁ : mobi_derive_bytes pubkey = Except.ok m₁)
    (h₂ : mobi_derive_bytes pubkey = Except.ok m₂) :
    m₁.full = m₂.full ∧ m₁.display = m₂.display ∧
    m₁.extended = m₂.extended ∧ m₁.lng = m₂.lng := by
  have hm : m₁ = m₂ := Except.ok.inj (h₁.symm.trans h₂)
  rw [hm]
  exact ⟨rfl, rfl, rfl, rfl⟩

/-- C6 witness: two derivations on the all-zero key. -/
theorem claim6_determinism_witness :
    mobi_derive_bytes (List.replicate 32 0) = Except.ok mZero ∧
    (mZero.full = mZero.full ∧ mZero.display = mZero.display ∧
     mZero.extended = mZero.extended ∧ mZero.lng = mZero.lng) :=
  ⟨by decide, claim6_determinism (List.replicate 32 0) mZero mZero (by decide) (by decide)⟩

/-- C7: normalizing the hyphen-formatted rendering of a valid identifier
field recovers the original digit string: for all-digit fields of lengths
12, 15 and 21 and output buffers strictly larger than the digit count,
`mobi_normalize` applied to the output of `mobi_format_display`,
`mobi_format_extended` and `mobi_format_full` returns exactly the
original digits. -/
theorem claim7_roundtrip (m : mobi_t) (ld le lf : Nat)
    (hdlen : m.display.length = 12) (hddig : m.display.all Char.isDigit = true)
    (helen : m.extended.length = 15) (hedig : m.extended.all Char.isDigit = true)
    (hflen : m.full.length = 21) (hfdig : m.full.all Char.isDigit = true)
    (hld : 12 < ld) (hle : 15 < le) (hlf : 21 < lf) :
    mobi_normalize (mobi_format_display m) ld = .ok m.display ∧
    mobi_normalize (mobi_format_extended m) le = .ok m.extended ∧
    mobi_normalize (mobi_format_full m) lf = .ok m.full := by
  have hd : ∀ c ∈ m.display, c.isDigit = true := List.all_eq_true.mp hddig
  have he : ∀ c ∈ m.extended, c.isDigit = true := List.all_eq_true.mp hedig
  have hf : ∀ c ∈ m.full, c.isDigit = true := List.all_eq_true.mp hfdig
  refine ⟨?_, ?_, ?_⟩
  · have hcnt : (mobi_format_display m).countP (fun c => c.isDigit) = 12 := by
      rw [List.countP_eq_length_filter, filter_format_display m hdlen hd, hdlen]
    have hok := normalize_go_ok ld (mobi_format_display m) 0
      (format_normChar_display m hd) (by omega)
    rw [filter_format_display m hdlen hd] at hok
    exact hok
  · have hcnt : (mobi_format_extended m).countP (fun c => c.isDigit) = 15 := by
      rw [List.countP_eq_length_filter, filter_format_extended m helen he, helen]
    have hok := normalize_go_ok le (mobi_format_extended m) 0
      (format_normChar_extended m he) (by omega)
    rw [filter_format_extended m helen he] at hok
    exact hok
  · have hcnt : (mobi_format_full m).countP (fun c => c.isDigit) = 21 := by
      rw [List.countP_eq_length_filter, filter_format_full m hflen hf, hflen]
    have hok := normalize_go_ok lf (mobi_format_full m) 0
      (format_normChar_full m hf) (by omega)
    rw [filter_format_full m hflen hf] at hok
    exact hok

/-- C7 witness: round-trip on the identifier derived from the all-zero
key, with buffers of 13, 16 and 22 bytes. -/
theorem claim7_roundtrip_witness :
    mZero.display.length = 12 ∧ mZero.display.all Char.isDigit = true ∧
    mZero.extended.length = 15 ∧ mZero.extended.all Char.isDigit = true ∧
    mZero.full.length = 21 ∧ mZero.full.all Char.isDigit = true ∧
    mobi_normalize (mobi_format_display mZero) 13 = .ok mZero.display ∧
    mobi_normalize (mobi_format_extended mZero) 16 = .ok mZero.extended ∧
    mobi_normalize (mobi_format_full mZero) 22 = .ok mZero.full := by
  obtain ⟨h1, h2, h3⟩ := claim7_roundtrip mZero 13 16 22 (by decide) (by decide)
    (by decide) (by decide) (by decide) (by decide) (by norm_num) (by norm_num)
    (by norm_num)
  exact ⟨by decide, by decide, by decide, by decide, by decide, by decide, h1, h2, h3⟩

/-- C8: the rejection loop always returns after at most the 256 listed
rounds (success or the exhaustion error), the working value of the
converter's division loop strictly decreases on every pass, and for every
9-byte input 22 passes of the division loop suffice. -/
theorem claim8_termination :
    (∀ work : List Nat, beVal work ≠ 0 → beVal (divStep work).1 < beVal work) ∧
    (∀ hash : List Nat, hash.length = 9 →
      hash.all (fun b => decide (b < 256)) = true →
      digitsGo 22 (0 :: hash) = digitsLoop (0 :: hash)) ∧
    (∀ pubkey : List Nat, (∃ m, mobi_derive_bytes pubkey = Except.ok m) ∨
      mobi_derive_bytes pubkey = Except.error mobi_error_t.MOBI_ERR_INVALID_LEN) := by
  refine ⟨?_, ?_, ?_⟩
  · intro w hw
    rw [divStep_fst]
    exact Nat.div_lt_self (Nat.pos_of_ne_zero hw) (by norm_num)
  · intro hash hlen hbytes
    have hb : ∀ b ∈ hash, b < 256 := fun b hbm =>
      of_decide_eq_true (List.all_eq_true.mp hbytes b hbm)
    have hval : beVal (0 :: hash) < 10 ^ 22 := by
      have h1 : beVal (0 :: hash) = beVal hash := by simp [beVal]
      rw [h1]
      calc beVal hash < 256 ^ hash.length := beVal_lt hash hb
        _ = 256 ^ 9 := by rw [hlen]
        _ < 10 ^ 22 := by norm_num
    rw [digitsGo_eq 22 _ hval, digitsLoop_eq]
    exact natDigitsGo_congr 22 (beVal (0 :: hash) + 1) (beVal (0 :: hash)) hval
      (self_lt_ten_pow_succ _)
  · intro pubkey
    exact deriveRounds_total (roundDigest pubkey) (List.range MOBI_MAX_ROUNDS)

/-- C8 witness: the strict decrease at work buffer [7], fuel sufficiency
at the all-0xff 9-byte input, and totality at the all-zero key. -/
theorem claim8_termination_witness :
    (beVal [7] ≠ 0 ∧ beVal (divStep [7]).1 < beVal [7]) ∧
    ((List.replicate 9 255).length = 9 ∧
     (List.replicate 9 255).all (fun b => decide (b < 256)) = true ∧
     digitsGo 22 (0 :: List.replicate 9 255) = digitsLoop (0 :: List.replicate 9 255)) ∧
    ((∃ m, mobi_derive_bytes (List.replicate 32 0) = Except.ok m) ∨
      mobi_derive_bytes (List.replicate 32 0) =
        Except.error mobi_error_t.MOBI_ERR_INVALID_LEN) :=
  ⟨⟨by decide, claim8_termination.1 [7] (by decide)⟩,
   ⟨by decide, by decide, claim8_termination.2.1 (List.replicate 9 255) (by decide) (by decide)⟩,
   claim8_termination.2.2 (List.replicate 32 0)⟩

/-- C9: with an output buffer strictly larger than the input,
`mobi_normalize` passes through decimal digits, strips exactly the
separators hyphen, space, period and parentheses, fails with the
InvalidChar error on any other character, and on the documented example
returns the 12 digits 650073047435. -/
theorem claim9_normalize :
    (∀ (input : List Char) (out_len : Nat), input.length < out_len →
      input.all (fun c => decide (normChar c)) = true →
      mobi_normalize input out_len = .ok (input.filter fun c => c.isDigit)) ∧
    (∀ (input : List Char) (out_len : Nat) (c : Char), input.length < out_len →
      c ∈ input → ¬normChar c →
      mobi_normalize input out_len = .error .MOBI_ERR_INVALID_CHAR) ∧
    (mobi_normalize "(650) 073-047-435".data 18 = .ok "650073047435".data ∧
      ("650073047435".data).length = 12) := by
  refine ⟨?_, ?_, by decide, by decide⟩
  · intro input out_len hlen hall
    have hall2 : ∀ c ∈ input, normChar c := fun c hc =>
      of_decide_eq_true (List.all_eq_true.mp hall c hc)
    have hcnt : input.countP (fun c => c.isDigit) ≤ input.length :=
      List.countP_le_length _
    exact normalize_go_ok out_len input 0 hall2 (by omega)
  · intro input out_len c hlen hc hnc
    exact normalize_go_error out_len input 0 (by omega) ⟨c, hc, hnc⟩

/-- C9 witness: the allow-list case on 12-3 and the InvalidChar case
on 1x. -/
theorem claim9_normalize_witness :
    ("12-3".data.length < 6 ∧
     "12-3".data.all (fun c => decide (normChar c)) = true ∧
     mobi_normalize "12-3".data 6 = .ok ("12-3".data.filter fun c => c.isDigit)) ∧
    ("1x".data.length < 4 ∧ 'x' ∈ "1x".data ∧ ¬normChar 'x' ∧
     mobi_normalize "1x".data 4 = .error .MOBI_ERR_INVALID_CHAR) :=
  ⟨⟨by decide, by decide, claim9_normalize.1 "12-3".data 6 (by decide) (by decide)⟩,
   ⟨by decide, by decide, by decide,
     claim9_normalize.2.1 "1x".data 4 'x' (by decide) (by decide) (by decide)⟩⟩

/-- C10: the scanning loop stops once out_len - 1 digits have been
written: any digits or disallowed characters after that point are
silently ignored and the digit count out_len - 1 is returned, while the
same disallowed character is reported when the buffer is large enough. -/
theorem claim10_capacity :
    (∀ (pre post : List Char) (out_len : Nat), pre.all Char.isDigit = true →
      pre.length = out_len - 1 → mobi_normalize (pre ++ post) out_len = .ok pre) ∧
    (mobi_normalize "123456!".data 4 = .ok "123".data ∧ ("123".data).length = 4 - 1) ∧
    mobi_normalize "123456!".data 9 = .error .MOBI_ERR_INVALID_CHAR := by
  refine ⟨?_, ⟨by decide, by decide⟩, by decide⟩
  intro pre post out_len hdig hlen
  exact normalize_go_capacity out_len pre post 0 (List.all_eq_true.mp hdig) (by omega)

/-- C10 witness: the digits 123 fill a 4-byte buffer and the tail 456!
is ignored. -/
theorem claim10_capacity_witness :
    "123".data.all Char.isDigit = true ∧ "123".data.length = 4 - 1 ∧
    mobi_normalize ("123".data ++ "456!".data) 4 = .ok "123".data :=
  ⟨by decide, by decide, claim10_capacity.1 "123".data "456!".data 4 (by decide) (by decide)⟩

end Mobi


